import Mathlib

set_option maxRecDepth 1000000

/-!
Shallow embedding of `scripts/extract_quotes.py` (SpringKeyers/spring-keys).

The script scans a Rust source file with the regular expression

  Quote\s*\{\s*text:\s*"([^"]*)".to_string\(\),\s*source:\s*"([^"]*)".to_string\(\),\s*
  difficulty:\s*QuoteDifficulty::(\w+),\s*category:\s*QuoteCategory::(\w+),\s*
  origin:\s*"([^"]*)".to_string\(\),\s*\}

via `re.findall`, buckets each match into one of 7 known categories, and merges each
bucket into a per-category JSON file, filtering out records whose `text` already
occurs in the existing file.

The regex above is deterministic: every greedy sub-pattern (`\s*`, `[^"]*`, `\w+`)
is followed by a literal its character class cannot match, so greedy maximal-munch
matching never backtracks, and `findall`'s left-to-right non-overlapping scan is
modelled by trying a match at each position and resuming after a successful match.
Note the single unescaped `.` in `".to_string` matches any non-newline character.

File contents are modelled at the record level (JSON serialization is assumed to
round-trip); the file system is a map from filename to `Option (List Record)`,
`none` meaning the file is absent.
-/

namespace SpringKeys

/-- One extracted quote record (a Python dict with these five string fields). -/
structure Record where
  text : String
  source : String
  difficulty : String
  category : String
  origin : String
deriving DecidableEq, Repr

/-- Python's `\s` on the characters occurring in ASCII source text. -/
def isPySpace (c : Char) : Bool :=
  c = ' ' || c = '\t' || c = '\n' || c = '\r' || c = '\x0b' || c = '\x0c'

/-- Python's `\w` restricted to ASCII (the identifiers matched here are Rust enum
variant names, which are ASCII). -/
def isWordChar (c : Char) : Bool :=
  c.isAlphanum || c = '_'

/-- Match a literal string: the regex fragment for a run of literal characters. -/
def expectStr (s cs : List Char) : Option (List Char) :=
  if s.isPrefixOf cs then some (cs.drop s.length) else none

/-- Greedy `\s*`: drop the maximal whitespace prefix. -/
def dropWS (cs : List Char) : List Char :=
  cs.dropWhile isPySpace

/-- Greedy `([^"]*)"`: capture the maximal run of non-quote characters, then
require the closing double quote.  (The head of the `dropWhile` remainder, when
it exists, is necessarily the double quote.) -/
def captureStr (cs : List Char) : Option (List Char × List Char) :=
  match cs.dropWhile (fun c => c != '"') with
  | c :: rest => if c = '"' then some (cs.takeWhile (fun c => c != '"'), rest) else none
  | [] => none

/-- Greedy `(\w+)`: capture the maximal nonempty run of word characters. -/
def captureWord (cs : List Char) : Option (List Char × List Char) :=
  if (cs.takeWhile isWordChar).isEmpty then none
  else some (cs.takeWhile isWordChar, cs.dropWhile isWordChar)

/-- The unescaped `.` of `".to_string`: any single character except newline. -/
def anyNonNL : List Char → Option (List Char)
  | [] => none
  | c :: cs => if c = '\n' then none else some cs

/-- The regex fragment `LABEL\s*"([^"]*)".to_string\(\),` (LABEL is `text:`,
`source:` or `origin:`). -/
def matchQuotedField (label : List Char) (cs : List Char) : Option (List Char × List Char) :=
  match expectStr label cs with
  | none => none
  | some cs1 =>
    match expectStr ['"'] (dropWS cs1) with
    | none => none
    | some cs3 =>
      match captureStr cs3 with
      | none => none
      | some (v, cs4) =>
        match anyNonNL cs4 with
        | none => none
        | some cs5 =>
          match expectStr "to_string(),".toList cs5 with
          | none => none
          | some cs6 => some (v, cs6)

/-- The regex fragment `LABEL\s*ENUM::(\w+),` (for the difficulty and category
fields). -/
def matchEnumField (label enumName : List Char) (cs : List Char) : Option (List Char × List Char) :=
  match expectStr label cs with
  | none => none
  | some cs1 =>
    match expectStr enumName (dropWS cs1) with
    | none => none
    | some cs3 =>
      match captureWord cs3 with
      | none => none
      | some (w, cs4) =>
        match expectStr [','] cs4 with
        | none => none
        | some cs5 => some (w, cs5)

/-- Attempt to match `quote_pattern` at the start of `cs`.  On success, return the
record built from the five captured groups together with the input remaining
after the match. -/
def tryMatch (cs : List Char) : Option (Record × List Char) :=
  match expectStr "Quote".toList cs with
  | none => none
  | some cs1 =>
    match expectStr ['{'] (dropWS cs1) with
    | none => none
    | some cs3 =>
      match matchQuotedField "text:".toList (dropWS cs3) with
      | none => none
      | some (text, cs5) =>
        match matchQuotedField "source:".toList (dropWS cs5) with
        | none => none
        | some (source, cs7) =>
          match matchEnumField "difficulty:".toList "QuoteDifficulty::".toList (dropWS cs7) with
          | none => none
          | some (difficulty, cs9) =>
            match matchEnumField "category:".toList "QuoteCategory::".toList (dropWS cs9) with
            | none => none
            | some (category, cs11) =>
              match matchQuotedField "origin:".toList (dropWS cs11) with
              | none => none
              | some (origin, cs13) =>
                match expectStr ['}'] (dropWS cs13) with
                | none => none
                | some cs15 =>
                  some (⟨String.mk text, String.mk source, String.mk difficulty,
                         String.mk category, String.mk origin⟩, cs15)

/-- `re.findall`: scan left to right, try a match at every position, and resume
after the end of each successful (non-overlapping) match.  A successful match
always consumes at least the literal `Quote`, so `cs.length` is enough fuel
(`findallAux_fuel` below). -/
def findallAux : Nat → List Char → List Record
  | 0, _ => []
  | _, [] => []
  | fuel + 1, c :: cs =>
    match tryMatch (c :: cs) with
    | some (r, rest) => r :: findallAux fuel rest
    | none => findallAux fuel cs

/-- All matches of `quote_pattern` in `cs`, in order (`quote_pattern.findall`). -/
def findall (cs : List Char) : List Record :=
  findallAux cs.length cs

/-- The `categories` dict: category name to output filename, in insertion order. -/
def categories : List (String × String) :=
  [("Proverbs", "proverbs.json"),
   ("TongueTwisters", "tongue_twisters.json"),
   ("Literature", "literature.json"),
   ("Programming", "programming.json"),
   ("Humor", "humor.json"),
   ("Multilingual", "multilingual.json"),
   ("Typewriters", "typewriters.json")]

/-- `quotes_by_category` after `extract_quotes_from_file`: records whose category
is a known key are appended, in extraction order, to that key's bucket; records
with an unknown category are dropped (with a printed diagnostic, not modelled). -/
def quotesByCategory (records : List Record) (cat : String) : List Record :=
  if (categories.map Prod.fst).contains cat then
    records.filter (fun r => r.category == cat)
  else []

/-- The body of `save_quotes_to_json` for one category: given the current content
of the category's file (`none` if absent) and the freshly extracted bucket,
return the file's content afterwards.  An empty bucket, or a bucket whose every
`text` already occurs in the existing file, leaves the file untouched. -/
def saveCategory (file : Option (List Record)) (quotes : List Record) : Option (List Record) :=
  if quotes.isEmpty then file
  else
    match file with
    | some existing_quotes =>
      let existing_texts := existing_quotes.map Record.text
      let new_quotes := quotes.filter (fun q => !(existing_texts.contains q.text))
      if new_quotes.isEmpty then file
      else some (existing_quotes ++ new_quotes)
    | none => some quotes

/-- The file system: filename to content, `none` when the file is absent. -/
def FS : Type := String → Option (List Record)

/-- No output file exists yet. -/
def emptyFS : FS := fun _ => none

/-- `save_quotes_to_json`: iterate over the `categories` dict in order, updating
each category's file from its bucket. -/
def saveQuotesToJson (byCat : String → List Record) (fs : FS) : FS :=
  categories.foldl
    (fun acc p => fun k => if k = p.2 then saveCategory (acc p.2) (byCat p.1) else acc k)
    fs

/-- One full run of the script on source text `content` over file system `fs`:
extract all matches, bucket them, and merge every bucket into its file. -/
def runOnce (fs : FS) (content : List Char) : FS :=
  saveQuotesToJson (quotesByCategory (findall content)) fs

/-- A sequence of runs starting from absent output files. -/
def applyRuns (contents : List (List Char)) : FS :=
  contents.foldl runOnce emptyFS

/-- The `text` values of a list of records. -/
def texts (l : List Record) : List String :=
  l.map Record.text

/-- `s` contains no double-quote character. -/
def noQuote (s : String) : Prop := ∀ c ∈ s.toList, c ≠ '"'

instance (s : String) : Decidable (noQuote s) := by
  unfold noQuote
  infer_instance

/-- Side conditions under which a record is renderable as a block the pattern
captures verbatim: quoted fields hold no double quote, enum fields are nonempty
words. -/
def WellFormed (r : Record) : Prop :=
  (∀ c ∈ r.text.toList, c ≠ '"') ∧ (∀ c ∈ r.source.toList, c ≠ '"') ∧
    (∀ c ∈ r.origin.toList, c ≠ '"') ∧
    r.difficulty.toList ≠ [] ∧ (∀ c ∈ r.difficulty.toList, isWordChar c = true) ∧
    r.category.toList ≠ [] ∧ (∀ c ∈ r.category.toList, isWordChar c = true)

instance (r : Record) : Decidable (WellFormed r) := by
  unfold WellFormed
  infer_instance

/-- The canonical rendering of a record as one source block followed by `rest`,
with a single space for each `\s*` of the pattern (the formatting used by the
actual Rust source the script was written for). -/
def renderBlock (r : Record) (rest : List Char) : List Char :=
  "Quote".toList ++ (' ' :: ('\x7b' :: (' ' ::
    ("text:".toList ++ (' ' :: ('"' :: (r.text.toList ++ ('"' :: ('.' ::
      ("to_string(),".toList ++ (' ' ::
    ("source:".toList ++ (' ' :: ('"' :: (r.source.toList ++ ('"' :: ('.' ::
      ("to_string(),".toList ++ (' ' ::
    ("difficulty:".toList ++ (' ' :: ("QuoteDifficulty::".toList ++
      (r.difficulty.toList ++ (',' :: (' ' ::
    ("category:".toList ++ (' ' :: ("QuoteCategory::".toList ++
      (r.category.toList ++ (',' :: (' ' ::
    ("origin:".toList ++ (' ' :: ('"' :: (r.origin.toList ++ ('"' :: ('.' ::
      ("to_string(),".toList ++ (' ' ::
    ('\x7d' :: rest))))))))))))))))))))))))))))))))))))))))

/-- A sequence of blocks rendered back to back. -/
def renderBlocks : List Record → List Char
  | [] => []
  | r :: rs => renderBlock r (renderBlocks rs)

/-! ### Concrete sample inputs (for evaluating the model on closed instances) -/

/-- A source block whose record is `recA` (category `Proverbs`, text `a`). -/
def blkA : String :=
  "Quote \x7b text: \"a\".to_string(), source: \"s\".to_string(), difficulty: QuoteDifficulty::Easy, category: QuoteCategory::Proverbs, origin: \"o\".to_string(), \x7d"

/-- A source block whose record is `recB` (category `Proverbs`, text `b`). -/
def blkB : String :=
  "Quote \x7b text: \"b\".to_string(), source: \"s\".to_string(), difficulty: QuoteDifficulty::Easy, category: QuoteCategory::Proverbs, origin: \"o\".to_string(), \x7d"

def recA : Record := ⟨"a", "s", "Easy", "Proverbs", "o"⟩

def recB : Record := ⟨"b", "s", "Easy", "Proverbs", "o"⟩

/-- A record carrying a category label outside the 7 known names. -/
def recX : Record := ⟨"x", "s", "Easy", "Nonsense", "o"⟩

/-- Sample source text containing the two `Proverbs` blocks. -/
def demoContent : List Char := (blkA ++ " " ++ blkB).toList

/-- Sample source text containing no block at all. -/
def junkContent : List Char := "no quotes in here".toList

/-- A file system whose `proverbs.json` already holds the unknown-category
record `recX`. -/
def demoFS : FS := fun fn => if fn = "proverbs.json" then some [recX] else none

/-! ### Basic lemmas about the matching combinators -/

theorem length_dropWhile_le (p : Char → Bool) (cs : List Char) :
    (cs.dropWhile p).length ≤ cs.length := by
  induction cs with
  | nil => simp
  | cons c cs ih =>
    by_cases h : p c
    · simp only [List.dropWhile_cons, h, if_true, List.length_cons]
      omega
    · simp [List.dropWhile_cons, h]

theorem isPrefixOf_append (s t : List Char) : s.isPrefixOf (s ++ t) = true := by
  simp [List.isPrefixOf_iff_prefix, List.prefix_append]

theorem isPrefixOf_length_le {s cs : List Char} (h : s.isPrefixOf cs = true) :
    s.length ≤ cs.length :=
  (List.isPrefixOf_iff_prefix.mp h).length_le

theorem expectStr_append (s t : List Char) : expectStr s (s ++ t) = some t := by
  simp [expectStr, isPrefixOf_append, List.drop_left]

theorem expectStr_eq_some {s cs rest : List Char} (h : expectStr s cs = some rest) :
    rest.length + s.length = cs.length := by
  unfold expectStr at h
  split at h
  · next hp =>
    cases h
    have := isPrefixOf_length_le hp
    simp only [List.length_drop]
    omega
  · cases h

theorem dropWS_length (cs : List Char) : (dropWS cs).length ≤ cs.length :=
  length_dropWhile_le isPySpace cs

theorem captureStr_eq_some {cs v rest : List Char} (h : captureStr cs = some (v, rest)) :
    rest.length < cs.length ∧ ∀ c ∈ v, c ≠ '"' := by
  unfold captureStr at h
  split at h
  · rename_i c0 rest' heq
    split at h
    · simp only [Option.some.injEq, Prod.mk.injEq] at h
      obtain ⟨rfl, rfl⟩ := h
      constructor
      · have h1 : (c0 :: rest').length ≤ cs.length := by
          rw [← heq]; exact length_dropWhile_le _ cs
        simp only [List.length_cons] at h1
        omega
      · intro c hc
        have := List.mem_takeWhile_imp hc
        simpa using this
    · exact Option.noConfusion h
  · exact Option.noConfusion h

theorem captureWord_eq_some {cs w rest : List Char} (h : captureWord cs = some (w, rest)) :
    rest.length < cs.length := by
  unfold captureWord at h
  split at h
  · exact Option.noConfusion h
  · rename_i hne
    simp only [Option.some.injEq, Prod.mk.injEq] at h
    obtain ⟨-, rfl⟩ := h
    cases cs with
    | nil => simp at hne
    | cons c cs =>
      by_cases hc : isWordChar c
      · simp only [List.dropWhile_cons, hc, if_true, List.length_cons]
        have := length_dropWhile_le isWordChar cs
        omega
      · simp [List.takeWhile_cons, hc] at hne

theorem anyNonNL_eq_some {cs rest : List Char} (h : anyNonNL cs = some rest) :
    rest.length < cs.length := by
  cases cs with
  | nil => exact Option.noConfusion h
  | cons c cs =>
    by_cases hc : c = '\n'
    · simp [anyNonNL, hc] at h
    · simp only [anyNonNL, hc, if_false] at h
      obtain rfl : cs = rest := Option.some.inj h
      simp only [List.length_cons]
      omega

theorem matchQuotedField_eq_some {label cs v rest : List Char}
    (h : matchQuotedField label cs = some (v, rest)) :
    rest.length < cs.length ∧ ∀ c ∈ v, c ≠ '"' := by
  unfold matchQuotedField at h
  split at h
  · exact Option.noConfusion h
  rename_i cs1 h1
  split at h
  · exact Option.noConfusion h
  rename_i cs3 h3
  split at h
  · exact Option.noConfusion h
  rename_i v' cs4 h4
  split at h
  · exact Option.noConfusion h
  rename_i cs5 h5
  split at h
  · exact Option.noConfusion h
  rename_i cs6 h6
  simp only [Option.some.injEq, Prod.mk.injEq] at h
  obtain ⟨rfl, rfl⟩ := h
  have e1 := expectStr_eq_some h1
  have e2 := dropWS_length cs1
  have e3 := expectStr_eq_some h3
  have e4 := captureStr_eq_some h4
  have e5 := anyNonNL_eq_some h5
  have e6 := expectStr_eq_some h6
  exact ⟨by omega, e4.2⟩

theorem matchEnumField_eq_some {label enumName cs w rest : List Char}
    (h : matchEnumField label enumName cs = some (w, rest)) :
    rest.length < cs.length := by
  unfold matchEnumField at h
  split at h
  · exact Option.noConfusion h
  rename_i cs1 h1
  split at h
  · exact Option.noConfusion h
  rename_i cs3 h3
  split at h
  · exact Option.noConfusion h
  rename_i w' cs4 h4
  split at h
  · exact Option.noConfusion h
  rename_i cs5 h5
  simp only [Option.some.injEq, Prod.mk.injEq] at h
  obtain ⟨rfl, rfl⟩ := h
  have e1 := expectStr_eq_some h1
  have e2 := dropWS_length cs1
  have e3 := expectStr_eq_some h3
  have e4 := captureWord_eq_some h4
  have e5 := expectStr_eq_some h5
  omega

theorem tryMatch_eq_some_length {cs : List Char} {r : Record} {rest : List Char}
    (h : tryMatch cs = some (r, rest)) : rest.length < cs.length := by
  unfold tryMatch at h
  split at h
  · exact Option.noConfusion h
  rename_i cs1 h1
  split at h
  · exact Option.noConfusion h
  rename_i cs3 h3
  split at h
  · exact Option.noConfusion h
  rename_i t cs5 h5
  split at h
  · exact Option.noConfusion h
  rename_i s cs7 h7
  split at h
  · exact Option.noConfusion h
  rename_i d cs9 h9
  split at h
  · exact Option.noConfusion h
  rename_i cv cs11 h11
  split at h
  · exact Option.noConfusion h
  rename_i o cs13 h13
  split at h
  · exact Option.noConfusion h
  rename_i cs15 h15
  simp only [Option.some.injEq, Prod.mk.injEq] at h
  obtain ⟨-, rfl⟩ := h
  have e1 := expectStr_eq_some h1
  have d1 := dropWS_length cs1
  have e3 := expectStr_eq_some h3
  have d3 := dropWS_length cs3
  have e5 := (matchQuotedField_eq_some h5).1
  have d5 := dropWS_length cs5
  have e7 := (matchQuotedField_eq_some h7).1
  have d7 := dropWS_length cs7
  have e9 := matchEnumField_eq_some h9
  have d9 := dropWS_length cs9
  have e11 := matchEnumField_eq_some h11
  have d11 := dropWS_length cs11
  have e13 := (matchQuotedField_eq_some h13).1
  have d13 := dropWS_length cs13
  have e15 := expectStr_eq_some h15
  omega

theorem findallAux_nil (fuel : Nat) : findallAux fuel [] = [] := by
  cases fuel <;> rfl

theorem findallAux_fuel_aux :
    ∀ (n : Nat) (cs : List Char), cs.length ≤ n →
      ∀ f1 f2, cs.length ≤ f1 → cs.length ≤ f2 → findallAux f1 cs = findallAux f2 cs := by
  intro n
  induction n with
  | zero =>
    intro cs h f1 f2 h1 h2
    have : cs = [] := List.length_eq_zero.mp (Nat.le_zero.mp h)
    subst this
    simp [findallAux_nil]
  | succ n ih =>
    intro cs h f1 f2 h1 h2
    cases cs with
    | nil => simp [findallAux_nil]
    | cons c cs =>
      simp only [List.length_cons] at h h1 h2
      obtain ⟨g1, rfl⟩ : ∃ k, f1 = k + 1 := ⟨f1 - 1, by omega⟩
      obtain ⟨g2, rfl⟩ : ∃ k, f2 = k + 1 := ⟨f2 - 1, by omega⟩
      cases htm : tryMatch (c :: cs) with
      | none =>
        simp only [findallAux, htm]
        exact ih cs (by omega) g1 g2 (by omega) (by omega)
      | some p =>
        obtain ⟨r, rest⟩ := p
        have hlen := tryMatch_eq_some_length htm
        simp only [List.length_cons] at hlen
        simp only [findallAux, htm]
        rw [ih rest (by omega) g1 g2 (by omega) (by omega)]

theorem findallAux_fuel {f1 f2 : Nat} {cs : List Char}
    (h1 : cs.length ≤ f1) (h2 : cs.length ≤ f2) :
    findallAux f1 cs = findallAux f2 cs :=
  findallAux_fuel_aux cs.length cs (le_refl _) f1 f2 h1 h2

theorem findall_cons_of_none {c : Char} {cs : List Char} (h : tryMatch (c :: cs) = none) :
    findall (c :: cs) = findall cs := by
  simp [findall, findallAux, h]

theorem findall_cons_of_some {c : Char} {cs : List Char} {r : Record} {rest : List Char}
    (h : tryMatch (c :: cs) = some (r, rest)) :
    findall (c :: cs) = r :: findall rest := by
  have hlen := tryMatch_eq_some_length h
  simp only [List.length_cons] at hlen
  simp only [findall, List.length_cons, findallAux, h]
  congr 1
  exact findallAux_fuel (by omega) (le_refl _)

/-! ### The merge-writer -/

theorem texts_append (a b : List Record) : texts (a ++ b) = texts a ++ texts b :=
  List.map_append Record.text a b

/-- The existing-file branch of `save_quotes_to_json`, all cases collapsed: the
resulting content is always the existing records followed by the incoming
records whose `text` is new. -/
theorem saveCategory_some (E N : List Record) :
    saveCategory (some E) N =
      some (E ++ N.filter (fun q => decide (q.text ∉ texts E))) := by
  have hfun : ∀ q ∈ N, (!((E.map Record.text).contains q.text)) =
      decide (q.text ∉ texts E) := by
    intro q _
    simp only [List.contains, List.elem_eq_mem, texts, decide_not]
  have hfil := List.filter_congr hfun
  unfold saveCategory
  split
  · rename_i hN
    obtain rfl : N = [] := List.isEmpty_iff.mp hN
    simp
  · show (if (N.filter (fun q => !((List.map Record.text E).contains q.text))).isEmpty = true
        then some E
        else some (E ++ N.filter (fun q => !((List.map Record.text E).contains q.text)))) =
      some (E ++ N.filter (fun q => decide (q.text ∉ texts E)))
    rw [hfil]
    split
    · rename_i hnew
      obtain hnil := List.isEmpty_iff.mp hnew
      rw [hnil, List.append_nil]
    · rfl

theorem saveCategory_none (N : List Record) (h : N ≠ []) :
    saveCategory none N = some N := by
  unfold saveCategory
  split
  · rename_i hN
    exact absurd (List.isEmpty_iff.mp hN) h
  · rfl

theorem mem_saveCategory {file : Option (List Record)} {quotes : List Record} {q : Record}
    (h : q ∈ (saveCategory file quotes).getD []) :
    q ∈ file.getD [] ∨ q ∈ quotes := by
  simp only [saveCategory] at h
  split at h
  · exact Or.inl h
  · split at h
    · rename_i E
      split at h
      · exact Or.inl h
      · simp only [Option.getD_some] at h
        rcases List.mem_append.mp h with h' | h'
        · exact Or.inl h'
        · exact Or.inr (List.mem_filter.mp h').1
    · exact Or.inr h

/-- If the incoming bucket is empty, or every incoming `text` already occurs in
the existing file, the file is left exactly as it was. -/
theorem saveCategory_unchanged (file : Option (List Record)) (N : List Record)
    (h : N = [] ∨ ∀ q ∈ N, q.text ∈ texts (file.getD [])) :
    saveCategory file N = file := by
  rcases h with rfl | hall
  · simp [saveCategory]
  · cases file with
    | none =>
      by_cases hN : N = []
      · subst hN
        simp [saveCategory]
      · exfalso
        obtain ⟨q, hq⟩ := List.exists_mem_of_ne_nil N hN
        have := hall q hq
        simp [texts] at this
    | some E =>
      rw [saveCategory_some]
      have hfil : N.filter (fun q => decide (q.text ∉ texts E)) = [] := by
        rw [List.filter_eq_nil_iff]
        intro q hq
        have hm := hall q hq
        simp only [Option.getD_some] at hm
        simp [hm]
      rw [hfil, List.append_nil]

/-- Saving the same bucket twice changes nothing the second time. -/
theorem saveCategory_idem (file : Option (List Record)) (N : List Record) :
    saveCategory (saveCategory file N) N = saveCategory file N := by
  by_cases hN : N.isEmpty = true
  · obtain rfl : N = [] := List.isEmpty_iff.mp hN
    simp [saveCategory]
  · cases file with
    | none =>
      have h1 : saveCategory none N = some N := by
        simp [saveCategory, hN]
      rw [h1]
      apply saveCategory_unchanged
      right
      intro q hq
      simp only [Option.getD_some, texts]
      exact List.mem_map_of_mem Record.text hq
    | some E =>
      rw [saveCategory_some E N]
      apply saveCategory_unchanged
      right
      intro q hq
      simp only [Option.getD_some]
      rw [texts_append]
      by_cases hqE : q.text ∈ texts E
      · exact List.mem_append.mpr (Or.inl hqE)
      · refine List.mem_append.mpr (Or.inr ?_)
        have hqf : q ∈ N.filter (fun q => decide (q.text ∉ texts E)) :=
          List.mem_filter.mpr ⟨hq, by simpa using hqE⟩
        exact List.mem_map_of_mem Record.text hqf

/-! ### The per-file view of `save_quotes_to_json` -/

theorem mem_quotesByCategory {rs : List Record} {cat : String} {q : Record}
    (h : q ∈ quotesByCategory rs cat) :
    q.category = cat ∧ (categories.map Prod.fst).contains cat = true := by
  unfold quotesByCategory at h
  split at h
  · rename_i hknown
    obtain ⟨-, hbeq⟩ := List.mem_filter.mp h
    exact ⟨by simpa using hbeq, hknown⟩
  · simp at h

theorem runOnce_eq_of_mem {cat fn : String} (hmem : (cat, fn) ∈ categories)
    (fs : FS) (content : List Char) :
    runOnce fs content fn = saveCategory (fs fn) (quotesByCategory (findall content) cat) := by
  simp only [categories, List.mem_cons, List.mem_singleton, Prod.mk.injEq,
    List.not_mem_nil, or_false] at hmem
  rcases hmem with ⟨rfl, rfl⟩ | ⟨rfl, rfl⟩ | ⟨rfl, rfl⟩ | ⟨rfl, rfl⟩ | ⟨rfl, rfl⟩ |
    ⟨rfl, rfl⟩ | ⟨rfl, rfl⟩ <;>
    simp [runOnce, saveQuotesToJson, categories]

theorem runOnce_eq_of_not_mem {fn : String} (h : fn ∉ categories.map Prod.snd)
    (fs : FS) (content : List Char) :
    runOnce fs content fn = fs fn := by
  simp only [categories, List.map_cons, List.map_nil, List.mem_cons,
    List.mem_singleton, List.not_mem_nil, or_false, not_or] at h
  obtain ⟨n1, n2, n3, n4, n5, n6, n7⟩ := h
  simp [runOnce, saveQuotesToJson, categories, n1, n2, n3, n4, n5, n6, n7]

theorem filename_cases (fn : String) :
    (∃ cat, (cat, fn) ∈ categories) ∨ fn ∉ categories.map Prod.snd := by
  by_cases h : fn ∈ categories.map Prod.snd
  · left
    simp only [categories, List.map_cons, List.map_nil, List.mem_cons,
      List.mem_singleton, List.not_mem_nil, or_false] at h
    rcases h with rfl | rfl | rfl | rfl | rfl | rfl | rfl
    exacts [⟨"Proverbs", by decide⟩, ⟨"TongueTwisters", by decide⟩,
      ⟨"Literature", by decide⟩, ⟨"Programming", by decide⟩, ⟨"Humor", by decide⟩,
      ⟨"Multilingual", by decide⟩, ⟨"Typewriters", by decide⟩]
  · exact Or.inr h

theorem count_texts_filter (N : List Record) (p : Record → Bool) (t : String)
    (hp : ∀ q : Record, q.text = t → p q = true) :
    (texts (N.filter p)).count t = (texts N).count t := by
  induction N with
  | nil => rfl
  | cons q N ih =>
    by_cases hq : p q = true
    · simp only [List.filter_cons, hq, if_true]
      simp only [texts, List.map_cons, List.count_cons] at ih ⊢
      omega
    · have hne : (q.text == t) = false := by
        apply beq_eq_false_iff_ne.mpr
        intro he
        exact hq (hp q he)
      simp only [List.filter_cons, hq, if_false]
      simp only [texts, List.map_cons, List.count_cons, hne] at ih ⊢
      simp only [Bool.false_eq_true, if_false]
      omega

/-! ### Claims -/

/-- C1: for a category whose persisted file already holds records `E`, the
merge-writer writes back to that file the records `E`, unchanged and in order,
followed by exactly those freshly extracted records whose `text` value does not
occur among the `text` values of `E`. -/
theorem merge_existing_file (E N : List Record) :
    saveCategory (some E) N =
      some (E ++ N.filter (fun q => decide (q.text ∉ texts E))) :=
  saveCategory_some E N

/-- C2: running the full extract-and-merge pipeline a second time on the same
source text leaves every output file exactly as the first run left it. -/
theorem second_run_no_growth (fs : FS) (content : List Char) (fn : String) :
    runOnce (runOnce fs content) content fn = runOnce fs content fn := by
  rcases filename_cases fn with ⟨cat, hmem⟩ | hnot
  · rw [runOnce_eq_of_mem hmem (runOnce fs content) content,
      runOnce_eq_of_mem hmem fs content, saveCategory_idem]
  · rw [runOnce_eq_of_not_mem hnot (runOnce fs content) content,
      runOnce_eq_of_not_mem hnot fs content]

/-- C5: a record whose category label is not one of the 7 known category names
is excluded from every output file: after a run, any such record found in an
output file was already there before the run. -/
theorem unknown_category_dropped (fs : FS) (content : List Char)
    (fn : String) (q : Record)
    (hq : (categories.map Prod.fst).contains q.category = false)
    (hmem : q ∈ (runOnce fs content fn).getD []) :
    q ∈ (fs fn).getD [] := by
  rcases filename_cases fn with ⟨cat, hcat⟩ | hnot
  · rw [runOnce_eq_of_mem hcat] at hmem
    rcases mem_saveCategory hmem with h | h
    · exact h
    · obtain ⟨hcq, hknown⟩ := mem_quotesByCategory h
      rw [← hcq] at hknown
      rw [hq] at hknown
      exact Bool.noConfusion hknown
  · rwa [runOnce_eq_of_not_mem hnot] at hmem

theorem unknown_category_dropped_witness :
    (categories.map Prod.fst).contains recX.category = false ∧
      recX ∈ (runOnce demoFS demoContent "proverbs.json").getD [] ∧
      recX ∈ (demoFS "proverbs.json").getD [] :=
  ⟨by decide, by decide,
    unknown_category_dropped demoFS demoContent "proverbs.json" recX (by decide) (by decide)⟩

/-- C6: for a category with no prior persisted file and a nonempty freshly
extracted bucket, the run creates the category's file containing exactly the
freshly extracted records. -/
theorem creates_new_file (fs : FS) (content : List Char) (cat fn : String)
    (hmem : (cat, fn) ∈ categories) (habsent : fs fn = none)
    (hne : quotesByCategory (findall content) cat ≠ []) :
    runOnce fs content fn = some (quotesByCategory (findall content) cat) := by
  rw [runOnce_eq_of_mem hmem, habsent, saveCategory_none _ hne]

theorem creates_new_file_witness :
    ("Proverbs", "proverbs.json") ∈ categories ∧ emptyFS "proverbs.json" = none ∧
      quotesByCategory (findall demoContent) "Proverbs" ≠ [] ∧
      runOnce emptyFS demoContent "proverbs.json" =
        some (quotesByCategory (findall demoContent) "Proverbs") :=
  ⟨by decide, rfl, by decide,
    creates_new_file emptyFS demoContent "Proverbs" "proverbs.json" (by decide) rfl (by decide)⟩

/-- C7: a category that yields zero new records in a run (no records extracted
for it, or every extracted `text` already present in the existing file) has its
file left exactly as it was: absent stays absent, existing content unchanged. -/
theorem skips_when_no_new (fs : FS) (content : List Char) (cat fn : String)
    (hmem : (cat, fn) ∈ categories)
    (hzero : quotesByCategory (findall content) cat = [] ∨
      ∀ q ∈ quotesByCategory (findall content) cat, q.text ∈ texts ((fs fn).getD [])) :
    runOnce fs content fn = fs fn := by
  rw [runOnce_eq_of_mem hmem]
  exact saveCategory_unchanged _ _ hzero

theorem skips_when_no_new_witness :
    ("Proverbs", "proverbs.json") ∈ categories ∧
      quotesByCategory (findall junkContent) "Proverbs" = [] ∧
      runOnce emptyFS junkContent "proverbs.json" = emptyFS "proverbs.json" :=
  ⟨by decide, by decide,
    skips_when_no_new emptyFS junkContent "Proverbs" "proverbs.json" (by decide)
      (Or.inl (by decide))⟩

/-- C9: the duplicate filter compares incoming records only against the `text`
values already persisted, not against the rest of the same batch: for any `text`
value absent from the existing file, every occurrence in the batch (duplicates
included) ends up in the file. -/
theorem batch_duplicates_kept (E N : List Record) (t : String)
    (ht : t ∉ texts E) :
    (texts ((saveCategory (some E) N).getD [])).count t = (texts N).count t := by
  rw [saveCategory_some, Option.getD_some, texts_append, List.count_append]
  rw [List.count_eq_zero.mpr ht]
  rw [count_texts_filter N _ t (fun q he => by
    rw [he]
    exact decide_eq_true ht)]
  omega

theorem batch_duplicates_kept_witness :
    ("a" : String) ∉ texts [recB] ∧
      (texts ((saveCategory (some [recB]) [recA, recA]).getD [])).count "a" =
        (texts [recA, recA]).count "a" :=
  ⟨by decide, batch_duplicates_kept [recB] [recA, recA] "a" (by decide)⟩

/-! ### The extractor never captures a double quote (C10), and skips junk (C8) -/

theorem tryMatch_no_quote {cs : List Char} {r : Record} {rest : List Char}
    (h : tryMatch cs = some (r, rest)) :
    noQuote r.text ∧ noQuote r.source ∧ noQuote r.origin := by
  unfold tryMatch at h
  split at h
  · exact Option.noConfusion h
  rename_i cs1 h1
  split at h
  · exact Option.noConfusion h
  rename_i cs3 h3
  split at h
  · exact Option.noConfusion h
  rename_i t cs5 h5
  split at h
  · exact Option.noConfusion h
  rename_i s cs7 h7
  split at h
  · exact Option.noConfusion h
  rename_i d cs9 h9
  split at h
  · exact Option.noConfusion h
  rename_i cv cs11 h11
  split at h
  · exact Option.noConfusion h
  rename_i o cs13 h13
  split at h
  · exact Option.noConfusion h
  rename_i cs15 h15
  simp only [Option.some.injEq, Prod.mk.injEq] at h
  obtain ⟨rfl, rfl⟩ := h
  exact ⟨fun c hc => (matchQuotedField_eq_some h5).2 c hc,
    fun c hc => (matchQuotedField_eq_some h7).2 c hc,
    fun c hc => (matchQuotedField_eq_some h13).2 c hc⟩

theorem findall_no_quote_aux :
    ∀ (fuel : Nat) (cs : List Char) (r : Record), r ∈ findallAux fuel cs →
      noQuote r.text ∧ noQuote r.source ∧ noQuote r.origin := by
  intro fuel
  induction fuel with
  | zero =>
    intro cs r h
    simp [findallAux] at h
  | succ fuel ih =>
    intro cs r h
    cases cs with
    | nil => simp [findallAux] at h
    | cons c cs =>
      cases htm : tryMatch (c :: cs) with
      | none =>
        rw [show findallAux (fuel + 1) (c :: cs) = findallAux fuel cs from by
          simp [findallAux, htm]] at h
        exact ih cs r h
      | some p =>
        obtain ⟨r0, rest⟩ := p
        rw [show findallAux (fuel + 1) (c :: cs) = r0 :: findallAux fuel rest from by
          simp [findallAux, htm]] at h
        rcases List.mem_cons.mp h with rfl | h'
        · exact tryMatch_no_quote htm
        · exact ih rest r h'

/-- C10: every record produced by the extractor has `text`, `source` and
`origin` values free of the double-quote character: the capturing groups for
those fields cannot match a quote, escaped or not. -/
theorem extracted_fields_no_quote (cs : List Char) (r : Record)
    (h : r ∈ findall cs) :
    noQuote r.text ∧ noQuote r.source ∧ noQuote r.origin :=
  findall_no_quote_aux cs.length cs r h

theorem extracted_fields_no_quote_witness :
    recA ∈ findall demoContent ∧
      (noQuote recA.text ∧ noQuote recA.source ∧ noQuote recA.origin) :=
  ⟨by decide, extracted_fields_no_quote demoContent recA (by decide)⟩

theorem tryMatch_not_Q {c : Char} (cs : List Char) (hc : c ≠ 'Q') :
    tryMatch (c :: cs) = none := by
  have hpre : (("Quote".toList).isPrefixOf (c :: cs)) = false := by
    show (('Q' :: "uote".toList).isPrefixOf (c :: cs)) = false
    have hQ : ('Q' == c) = false := beq_eq_false_iff_ne.mpr (Ne.symm hc)
    simp only [List.isPrefixOf, hQ, Bool.false_and]
  unfold tryMatch
  rw [show expectStr "Quote".toList (c :: cs) = none from by
    unfold expectStr
    simp only [hpre, Bool.false_eq_true, if_false]]

theorem findall_junk_prefix :
    ∀ (junk cs : List Char), (∀ c ∈ junk, c ≠ 'Q') →
      findall (junk ++ cs) = findall cs := by
  intro junk
  induction junk with
  | nil =>
    intro cs _
    rfl
  | cons c junk ih =>
    intro cs hj
    rw [List.cons_append,
      findall_cons_of_none (tryMatch_not_Q _ (hj c (List.mem_cons_self c junk)))]
    exact ih cs (fun x hx => hj x (List.mem_cons_of_mem c hx))

/-- C8: input that does not match the block shape is skipped without producing
records and without failing: at a position where no match starts the scan just
moves on, and a region free of the letter `Q` (with which every match begins)
contributes no record at all. -/
theorem unmatched_input_skipped (c : Char) (junk cs : List Char)
    (hj : ∀ x ∈ junk, x ≠ 'Q') (hc : tryMatch (c :: cs) = none) :
    findall (c :: cs) = findall cs ∧ findall (junk ++ cs) = findall cs ∧
      findall junk = [] :=
  ⟨findall_cons_of_none hc, findall_junk_prefix junk cs hj, by
    have h0 := findall_junk_prefix junk [] hj
    rwa [List.append_nil] at h0⟩

theorem unmatched_input_skipped_witness :
    (∀ x ∈ junkContent, x ≠ 'Q') ∧ tryMatch ('x' :: demoContent) = none ∧
      (findall ('x' :: demoContent) = findall demoContent ∧
        findall (junkContent ++ demoContent) = findall demoContent ∧
        findall junkContent = []) :=
  ⟨by decide, by decide,
    unmatched_input_skipped 'x' junkContent demoContent (by decide) (by decide)⟩

/-! ### Rendering blocks and parsing them back (C3) -/

theorem dropWS_cons_true (c : Char) (h : isPySpace c = true) (l : List Char) :
    dropWS (c :: l) = dropWS l := by
  simp [dropWS, List.dropWhile_cons, h]

theorem dropWS_cons_false (c : Char) (h : isPySpace c = false) (l : List Char) :
    dropWS (c :: l) = c :: l := by
  simp [dropWS, List.dropWhile_cons, h]

theorem dropWS_append (l : List Char) (h1 : l ≠ []) (h2 : isPySpace (l.headD ' ') = false) :
    ∀ X, dropWS (l ++ X) = l ++ X := by
  intro X
  cases l with
  | nil => exact absurd rfl h1
  | cons c l' =>
    simp only [List.headD_cons] at h2
    rw [List.cons_append]
    exact dropWS_cons_false c h2 _

theorem expectStr_cons (c : Char) (l : List Char) : expectStr [c] (c :: l) = some l := by
  have := expectStr_append [c] l
  simpa using this

theorem captureStr_append (v : List Char) (hv : ∀ c ∈ v, c ≠ '"') :
    ∀ rest, captureStr (v ++ '"' :: rest) = some (v, rest) := by
  intro rest
  have hp : ∀ c ∈ v, (c != '"') = true := by
    intro c hc
    simpa using hv c hc
  unfold captureStr
  rw [List.dropWhile_append_of_pos hp, List.takeWhile_append_of_pos hp]
  rw [show List.dropWhile (fun c => c != '"') ('"' :: rest) = '"' :: rest from by
    simp [List.dropWhile_cons, show (('"' : Char) != '"') = false from by decide]]
  rw [show List.takeWhile (fun c => c != '"') ('"' :: rest) = [] from by
    simp [List.takeWhile_cons, show (('"' : Char) != '"') = false from by decide]]
  simp

theorem captureWord_append (w : List Char) (hw : w ≠ [])
    (hword : ∀ c ∈ w, isWordChar c = true) :
    ∀ rest, captureWord (w ++ ',' :: rest) = some (w, ',' :: rest) := by
  intro rest
  unfold captureWord
  rw [List.takeWhile_append_of_pos hword, List.dropWhile_append_of_pos hword]
  rw [show List.takeWhile isWordChar (',' :: rest) = [] from by
    simp [List.takeWhile_cons, show isWordChar ',' = false from by decide]]
  rw [show List.dropWhile isWordChar (',' :: rest) = ',' :: rest from by
    simp [List.dropWhile_cons, show isWordChar ',' = false from by decide]]
  rw [List.append_nil]
  rw [show w.isEmpty = false from List.isEmpty_eq_false.mpr hw]
  simp

theorem anyNonNL_cons (c : Char) (h : c ≠ '\n') (l : List Char) :
    anyNonNL (c :: l) = some l := by
  simp [anyNonNL, h]

theorem matchQuotedField_render (label v : List Char) (hv : ∀ c ∈ v, c ≠ '"') :
    ∀ rest, matchQuotedField label
      (label ++ (' ' :: ('"' :: (v ++ ('"' :: ('.' :: ("to_string(),".toList ++ rest))))))) =
      some (v, rest) := by
  intro rest
  simp only [matchQuotedField, expectStr_append,
    dropWS_cons_true ' ' (by decide), dropWS_cons_false '"' (by decide),
    expectStr_cons, captureStr_append v hv, anyNonNL_cons '.' (by decide)]

theorem matchEnumField_render (label enumName w : List Char)
    (he : ∀ X, dropWS (enumName ++ X) = enumName ++ X)
    (hw : w ≠ []) (hword : ∀ c ∈ w, isWordChar c = true) :
    ∀ rest, matchEnumField label enumName
      (label ++ (' ' :: (enumName ++ (w ++ (',' :: rest))))) = some (w, rest) := by
  intro rest
  simp only [matchEnumField, expectStr_append, dropWS_cons_true ' ' (by decide),
    he, captureWord_append w hw hword, expectStr_cons]

theorem tryMatch_renderBlock (r : Record) (h : WellFormed r) :
    ∀ rest, tryMatch (renderBlock r rest) = some (r, rest) := by
  obtain ⟨ht, hs, ho, hdne, hdw, hcne, hcw⟩ := h
  intro rest
  simp only [renderBlock, tryMatch, expectStr_append,
    dropWS_cons_true ' ' (by decide),
    dropWS_cons_false '\x7b' (by decide),
    dropWS_cons_false '\x7d' (by decide),
    expectStr_cons,
    dropWS_append "text:".toList (by decide) (by decide),
    dropWS_append "source:".toList (by decide) (by decide),
    dropWS_append "difficulty:".toList (by decide) (by decide),
    dropWS_append "category:".toList (by decide) (by decide),
    dropWS_append "origin:".toList (by decide) (by decide),
    matchQuotedField_render "text:".toList r.text.toList ht,
    matchQuotedField_render "source:".toList r.source.toList hs,
    matchQuotedField_render "origin:".toList r.origin.toList ho,
    matchEnumField_render "difficulty:".toList "QuoteDifficulty::".toList r.difficulty.toList
      (dropWS_append "QuoteDifficulty::".toList (by decide) (by decide)) hdne hdw,
    matchEnumField_render "category:".toList "QuoteCategory::".toList r.category.toList
      (dropWS_append "QuoteCategory::".toList (by decide) (by decide)) hcne hcw]
  rfl

theorem findall_renderBlocks (rs : List Record) (h : ∀ r ∈ rs, WellFormed r) :
    findall (renderBlocks rs) = rs := by
  induction rs with
  | nil => rfl
  | cons r rs ih =>
    have hr := h r (List.mem_cons_self r rs)
    have htm := tryMatch_renderBlock r hr (renderBlocks rs)
    have hlen := tryMatch_eq_some_length htm
    rw [show renderBlocks (r :: rs) = renderBlock r (renderBlocks rs) from rfl]
    cases hb : renderBlock r (renderBlocks rs) with
    | nil =>
      rw [hb] at hlen
      simp at hlen
    | cons c cs =>
      rw [hb] at htm
      rw [findall_cons_of_some htm, ih (fun x hx => h x (List.mem_cons_of_mem r hx))]

/-- C3: for every sequence of well-formed records rendered as source blocks, the
extractor yields exactly one record per block, with the five fields equal to the
corresponding captured group values, in order. -/
theorem extractor_matches_blocks (rs : List Record) (h : ∀ r ∈ rs, WellFormed r) :
    findall (renderBlocks rs) = rs :=
  findall_renderBlocks rs h

theorem extractor_matches_blocks_witness :
    (∀ r ∈ [recA, recB], WellFormed r) ∧
      findall (renderBlocks [recA, recB]) = [recA, recB] :=
  ⟨by decide, extractor_matches_blocks [recA, recB] (by decide)⟩

/-! ### Uniqueness of texts within a partition file (C4) -/

/-- C4 counterexample: one run on a source text containing the identical block
twice stores that record twice, so the stored `text` values of the category file
are not pairwise distinct. -/
theorem duplicate_blocks_break_text_uniqueness :
    ¬ (texts (((applyRuns [(blkA ++ blkA).toList]) "proverbs.json").getD [])).Nodup := by
  decide

theorem saveCategory_nodup (file : Option (List Record)) (N : List Record)
    (h1 : (texts (file.getD [])).Nodup) (h2 : (texts N).Nodup) :
    (texts ((saveCategory file N).getD [])).Nodup := by
  cases file with
  | none =>
    by_cases hN : N = []
    · subst hN
      simp [saveCategory, texts]
    · rw [saveCategory_none N hN]
      simpa using h2
  | some E =>
    rw [saveCategory_some]
    simp only [Option.getD_some] at h1 ⊢
    rw [texts_append, List.nodup_append]
    refine ⟨h1, ?_, ?_⟩
    · have hsub : (N.filter (fun q => decide (q.text ∉ texts E))).Sublist N :=
        List.filter_sublist N
      have hmapsub := hsub.map Record.text
      simp only [texts] at h2 ⊢
      exact List.Nodup.sublist hmapsub h2
    · intro t ht1 ht2
      simp only [texts, List.mem_map] at ht2
      obtain ⟨q, hq, rfl⟩ := ht2
      have hflt := (List.mem_filter.mp hq).2
      simp only [texts, List.mem_map] at ht1
      exact (of_decide_eq_true hflt) ht1

theorem runOnce_nodup (fs : FS) (content : List Char)
    (hfs : ∀ k, (texts ((fs k).getD [])).Nodup)
    (hc : ∀ cat ∈ categories.map Prod.fst,
      (texts (quotesByCategory (findall content) cat)).Nodup) :
    ∀ k, (texts ((runOnce fs content k).getD [])).Nodup := by
  intro k
  rcases filename_cases k with ⟨cat, hmem⟩ | hnot
  · rw [runOnce_eq_of_mem hmem]
    exact saveCategory_nodup _ _ (hfs k) (hc cat (List.mem_map_of_mem Prod.fst hmem))
  · rw [runOnce_eq_of_not_mem hnot]
    exact hfs k

theorem applyRuns_nodup_aux :
    ∀ (contents : List (List Char)) (fs : FS),
      (∀ c ∈ contents, ∀ cat ∈ categories.map Prod.fst,
        (texts (quotesByCategory (findall c) cat)).Nodup) →
      (∀ k, (texts ((fs k).getD [])).Nodup) →
      ∀ k, (texts ((contents.foldl runOnce fs k).getD [])).Nodup := by
  intro contents
  induction contents with
  | nil =>
    intro fs _ hfs k
    exact hfs k
  | cons c cs ih =>
    intro fs h hfs k
    simp only [List.foldl_cons]
    exact ih (runOnce fs c)
      (fun x hx => h x (List.mem_cons_of_mem c hx))
      (runOnce_nodup fs c hfs (h c (List.mem_cons_self c cs))) k

/-- C4 (amended): starting from absent output files, after any sequence of runs
in each of which the freshly extracted records of every known category have
pairwise-distinct `text` values, every partition file's stored `text` values are
pairwise distinct.  (Unconditionally the claim is false: a run whose batch holds
two records with the same `text` stores both, see the counterexample.) -/
theorem partition_texts_nodup (contents : List (List Char))
    (h : ∀ c ∈ contents, ∀ cat ∈ categories.map Prod.fst,
      (texts (quotesByCategory (findall c) cat)).Nodup)
    (fn : String) :
    (texts ((applyRuns contents fn).getD [])).Nodup :=
  applyRuns_nodup_aux contents emptyFS h (fun k => by simp [emptyFS, texts]) fn

theorem partition_texts_nodup_witness :
    (∀ c ∈ [demoContent], ∀ cat ∈ categories.map Prod.fst,
      (texts (quotesByCategory (findall c) cat)).Nodup) ∧
      (texts ((applyRuns [demoContent] "proverbs.json").getD [])).Nodup :=
  ⟨by decide, partition_texts_nodup [demoContent] (by decide) "proverbs.json"⟩

end SpringKeys
